import Mathlib

/-!
# Verification of `tempora-bloom` (`src/lib.rs`)

A shallow embedding of the `StandardBloomFilter<T>` implementation.

Modelling choices:
* The `bit_vec::BitVec` bitmap is a `List Bool`; `BitVec::from_elem m false`
  is `List.replicate m false`, `set i true` is `List.set i true`,
  `get(i).unwrap_or(false)` is `List.getD i false`, `clear()` (which zeroes
  every bit and keeps the length) is `List.replicate length false`, and
  `none()` is `List.all (fun b => !b)`.
* A `DefaultHasher` (a SipHash state produced by `RandomState::new()`) is
  represented by its state, a natural number; the external hash primitive
  "clone the hasher with this state, feed the item, call `finish()`" is a
  parameter `fh : Nat → T → Nat`, and the `u64` returned by `finish()` is
  modelled by reducing `mod 2^64`.
* `u64` wrapping arithmetic is `Nat` arithmetic reduced `mod 2^64`; `usize`
  is `Nat` (the target is 64-bit).
* The `f64` argument `fp_rate` of `new` is `F64 := Option ℚ`: `some q` is a
  finite value (idealized as a rational), `none` is a non-finite value such
  as NaN, on which every `<` comparison is false, exactly as in IEEE 754.
  The transcendental sizing math (`ln`, `ceil`) is idealized as exact real
  arithmetic over `ℝ`.
* The `assert!` panics of `new` are an `Except String` error result.
-/

/-- Model of Rust `f64` as passed to `new`: `some q` is a finite value,
`none` a non-finite one (NaN or an infinity). -/
def F64 : Type := Option ℚ

/-- The word modulus for `u64` wrapping arithmetic. -/
def U64 : ℕ := 2 ^ 64

/-- Model of `StandardBloomFilter<T>` from `src/lib.rs`: the `BitVec` bitmap,
the stored `optimal_k`, and the states of the two stored `DefaultHasher`s.
`T` is phantom, as in the Rust `PhantomData<T>` marker. -/
structure StandardBloomFilter (T : Type) where
  bitmap : List Bool
  optimal_k : ℕ
  hashers : ℕ × ℕ

namespace StandardBloomFilter

variable {T : Type}

/-- `Self::bitmap_size`: `((-1.0 * items_count as f64 * fp_rate.ln()) / LN_2^2).ceil() as usize`,
with `f64` idealized as `ℝ` (the `as usize` cast of the non-negative ceiling
is `Nat.ceil`, which also matches the saturating-to-0 cast on negatives). -/
noncomputable def bitmap_size (items_count : ℕ) (fp_rate : ℚ) : ℕ :=
  ⌈(-1 * (items_count : ℝ) * Real.log (fp_rate : ℝ)) / (Real.log 2) ^ 2⌉₊

/-- `Self::optimal_k`: `(-(fp_rate.ln() / LN_2)).ceil() as u32`, with `f64`
idealized as `ℝ`. -/
noncomputable def optimal_k_calc (fp_rate : ℚ) : ℕ :=
  ⌈-(Real.log (fp_rate : ℝ) / Real.log 2)⌉₊

/-- The record constructed at the end of `new`: `bitmap` is
`BitVec::from_elem(m, false)`, `optimal_k` is `k`, `hashers` holds the two
hasher states. -/
def from_params (m k : ℕ) (hs : ℕ × ℕ) : StandardBloomFilter T :=
  { bitmap := List.replicate m false, optimal_k := k, hashers := hs }

/-- `StandardBloomFilter::new`. The two `assert!`s become `Except.error`
(in source order: `items_count` first, then `fp_rate`); a non-finite
`fp_rate` (`none`) fails the `fp_rate > 0.0 && fp_rate < 1.0` check because
NaN comparisons are false. `s1, s2` are the two random `RandomState` seeds,
supplied by the environment. -/
noncomputable def new (s1 s2 : ℕ) (items_count : ℕ) (fp_rate : F64) :
    Except String (StandardBloomFilter T) :=
  if items_count = 0 then .error "items_count must be greater than 0"
  else
    match fp_rate with
    | none => .error "fp_rate must be between 0 and 1 (exclusive)"
    | some q =>
      if 0 < q ∧ q < 1 then
        .ok (from_params (bitmap_size items_count q) (optimal_k_calc q) (s1, s2))
      else .error "fp_rate must be between 0 and 1 (exclusive)"

variable (fh : ℕ → T → ℕ)

/-- `Self::hash_kernel`: clone each stored hasher, feed the item, `finish()`.
`fh s item` is the external hash primitive applied to a hasher in state `s`;
`% U64` models the `u64` return type of `finish`. The stored hasher states
are read, never written. -/
def hash_kernel (f : StandardBloomFilter T) (item : T) : ℕ × ℕ :=
  (fh f.hashers.1 item % U64, fh f.hashers.2 item % U64)

/-- `Self::get_index`: `h1.wrapping_add(k_i.wrapping_mul(h2)) % len as u64`,
as `usize`. Each wrapping operation reduces `mod 2^64`. -/
def get_index (h1 h2 k_i len : ℕ) : ℕ :=
  ((h1 + (k_i * h2) % U64) % U64) % len

/-- The `for k_i in 0..optimal_k { bitmap.set(index, true) }` loop body,
abstracted over the index computation `g`. -/
def set_bits (g : ℕ → ℕ) (l : List ℕ) (bm : List Bool) : List Bool :=
  l.foldl (fun b k_i => b.set (g k_i) true) bm

/-- `StandardBloomFilter::insert`. -/
def insert (f : StandardBloomFilter T) (item : T) : StandardBloomFilter T :=
  let h := hash_kernel fh f item
  let len := f.bitmap.length
  { f with
    bitmap := set_bits (fun k_i => get_index h.1 h.2 k_i len)
      (List.range f.optimal_k) f.bitmap }

/-- `StandardBloomFilter::contains`: every probe bit
(`bitmap.get(index).unwrap_or(false)`) must be set; `List.all` short-circuits
on the first `false` exactly as the early `return false` does. -/
def contains (f : StandardBloomFilter T) (item : T) : Bool :=
  let h := hash_kernel fh f item
  let len := f.bitmap.length
  (List.range f.optimal_k).all fun k_i =>
    f.bitmap.getD (get_index h.1 h.2 k_i len) false

/-- `StandardBloomFilter::clear`: `BitVec::clear` zeroes every bit, keeping
the length. -/
def clear (f : StandardBloomFilter T) : StandardBloomFilter T :=
  { f with bitmap := List.replicate f.bitmap.length false }

/-- `StandardBloomFilter::len`: the bitmap length `m`. -/
def len (f : StandardBloomFilter T) : ℕ :=
  f.bitmap.length

/-- `StandardBloomFilter::is_empty`: `BitVec::none`, true iff no bit is set. -/
def is_empty (f : StandardBloomFilter T) : Bool :=
  f.bitmap.all fun b => !b

/-- `StandardBloomFilter::hash_count`: the stored `optimal_k`. -/
def hash_count (f : StandardBloomFilter T) : ℕ :=
  f.optimal_k

/-- A mutating operation on the filter: `insert` or `clear` (`contains` and
the getters take `&self` and leave the state untouched). -/
inductive Op (T : Type) where
  | ins : T → Op T
  | clr : Op T

/-- Apply one mutating operation. -/
def applyOp (f : StandardBloomFilter T) : Op T → StandardBloomFilter T
  | .ins x => insert fh f x
  | .clr => clear f

/-- Run a sequence of mutating operations left to right. -/
def run (f : StandardBloomFilter T) (ops : List (Op T)) : StandardBloomFilter T :=
  ops.foldl (applyOp fh) f

end StandardBloomFilter

namespace StandardBloomFilter

/-! ## Helper lemmas about the bitmap (`List Bool`) -/

theorem getD_set_true_iff (bm : List Bool) (j i : ℕ) :
    (bm.set j true).getD i false = true ↔
      (i = j ∧ j < bm.length) ∨ bm.getD i false = true := by
  induction bm generalizing i j with
  | nil => simp
  | cons a as ih =>
    cases j with
    | zero =>
      cases i with
      | zero => simp
      | succ i => simp
    | succ j =>
      cases i with
      | zero => simp
      | succ i => simpa [Nat.succ_lt_succ_iff] using ih j i

theorem set_true_eq_self (bm : List Bool) (j : ℕ)
    (h : bm.getD j false = true) : bm.set j true = bm := by
  induction bm generalizing j with
  | nil => simp
  | cons a as ih =>
    cases j with
    | zero => simpa using h.symm
    | succ j => simpa using ih j (by simpa using h)

theorem count_true_le_set_true (bm : List Bool) (j : ℕ) :
    bm.count true ≤ (bm.set j true).count true := by
  induction bm generalizing j with
  | nil => simp
  | cons a as ih =>
    cases j with
    | zero =>
      simp only [List.set_cons_zero, List.count_cons]
      cases a <;> simp
    | succ j =>
      simp only [List.set_cons_succ, List.count_cons]
      exact Nat.add_le_add (ih j) le_rfl

theorem count_true_replicate_false (n : ℕ) :
    (List.replicate n false).count true = 0 := by
  induction n with
  | zero => simp
  | succ n ih => simpa [List.replicate_succ, List.count_cons] using ih

theorem set_bits_cons (g : ℕ → ℕ) (a : ℕ) (l : List ℕ) (bm : List Bool) :
    set_bits g (a :: l) bm = set_bits g l (bm.set (g a) true) := rfl

theorem length_set_bits (g : ℕ → ℕ) (l : List ℕ) (bm : List Bool) :
    (set_bits g l bm).length = bm.length := by
  induction l generalizing bm with
  | nil => rfl
  | cons a l ih => simpa [set_bits_cons] using ih (bm.set (g a) true)

theorem getD_set_bits_iff (g : ℕ → ℕ) (l : List ℕ) (bm : List Bool) (i : ℕ) :
    (set_bits g l bm).getD i false = true ↔
      bm.getD i false = true ∨ ∃ k_i ∈ l, g k_i = i ∧ g k_i < bm.length := by
  induction l generalizing bm with
  | nil => simp [set_bits]
  | cons a l ih =>
    rw [set_bits_cons, ih, getD_set_true_iff]
    simp only [List.length_set, List.mem_cons]
    constructor
    · rintro ((⟨rfl, hlt⟩ | h) | ⟨k_i, hk, hgi, hlt⟩)
      · exact Or.inr ⟨a, Or.inl rfl, rfl, hlt⟩
      · exact Or.inl h
      · exact Or.inr ⟨k_i, Or.inr hk, hgi, hlt⟩
    · rintro (h | ⟨k_i, (rfl | hk), hgi, hlt⟩)
      · exact Or.inl (Or.inr h)
      · exact Or.inl (Or.inl ⟨hgi.symm, hlt⟩)
      · exact Or.inr ⟨k_i, hk, hgi, hlt⟩

theorem getD_set_bits_of_getD (g : ℕ → ℕ) (l : List ℕ) (bm : List Bool) (i : ℕ)
    (h : bm.getD i false = true) : (set_bits g l bm).getD i false = true :=
  (getD_set_bits_iff g l bm i).mpr (Or.inl h)

theorem getD_set_bits_of_mem (g : ℕ → ℕ) (l : List ℕ) (bm : List Bool) (k_i : ℕ)
    (hk : k_i ∈ l) (hlt : g k_i < bm.length) :
    (set_bits g l bm).getD (g k_i) false = true :=
  (getD_set_bits_iff g l bm (g k_i)).mpr (Or.inr ⟨k_i, hk, rfl, hlt⟩)

theorem set_bits_eq_self (g : ℕ → ℕ) (l : List ℕ) (bm : List Bool)
    (h : ∀ k_i ∈ l, bm.getD (g k_i) false = true) : set_bits g l bm = bm := by
  induction l generalizing bm with
  | nil => rfl
  | cons a l ih =>
    rw [set_bits_cons, set_true_eq_self bm (g a) (h a (List.mem_cons_self a l))]
    exact ih bm fun k_i hk => h k_i (List.mem_cons_of_mem a hk)

theorem count_true_le_set_bits (g : ℕ → ℕ) (l : List ℕ) (bm : List Bool) :
    bm.count true ≤ (set_bits g l bm).count true := by
  induction l generalizing bm with
  | nil => exact le_rfl
  | cons a l ih =>
    rw [set_bits_cons]
    exact le_trans (count_true_le_set_true bm (g a)) (ih (bm.set (g a) true))

/-! ## Frame lemmas for the filter operations -/

variable {T : Type} (fh : ℕ → T → ℕ)

theorem insert_optimal_k (f : StandardBloomFilter T) (x : T) :
    (insert fh f x).optimal_k = f.optimal_k := rfl

theorem insert_hashers (f : StandardBloomFilter T) (x : T) :
    (insert fh f x).hashers = f.hashers := rfl

theorem insert_bitmap_length (f : StandardBloomFilter T) (x : T) :
    (insert fh f x).bitmap.length = f.bitmap.length :=
  length_set_bits ..

theorem clear_optimal_k (f : StandardBloomFilter T) :
    (clear f).optimal_k = f.optimal_k := rfl

theorem clear_hashers (f : StandardBloomFilter T) :
    (clear f).hashers = f.hashers := rfl

theorem clear_bitmap_length (f : StandardBloomFilter T) :
    (clear f).bitmap.length = f.bitmap.length :=
  List.length_replicate ..

theorem hash_kernel_congr {f f' : StandardBloomFilter T}
    (h : f.hashers = f'.hashers) (x : T) :
    hash_kernel fh f x = hash_kernel fh f' x := by
  simp [hash_kernel, h]

theorem run_hashers (f : StandardBloomFilter T) (ops : List (Op T)) :
    (run fh f ops).hashers = f.hashers := by
  induction ops generalizing f with
  | nil => rfl
  | cons op ops ih =>
    cases op with
    | ins x => simpa [run, List.foldl_cons, applyOp] using ih (insert fh f x)
    | clr => simpa [run, List.foldl_cons, applyOp] using ih (clear f)

theorem run_optimal_k (f : StandardBloomFilter T) (ops : List (Op T)) :
    (run fh f ops).optimal_k = f.optimal_k := by
  induction ops generalizing f with
  | nil => rfl
  | cons op ops ih =>
    cases op with
    | ins x => simpa [run, List.foldl_cons, applyOp] using ih (insert fh f x)
    | clr => simpa [run, List.foldl_cons, applyOp] using ih (clear f)

theorem run_bitmap_length (f : StandardBloomFilter T) (ops : List (Op T)) :
    (run fh f ops).bitmap.length = f.bitmap.length := by
  induction ops generalizing f with
  | nil => rfl
  | cons op ops ih =>
    cases op with
    | ins x =>
      have := ih (insert fh f x)
      simpa [run, List.foldl_cons, applyOp, insert_bitmap_length] using this
    | clr =>
      have := ih (clear f)
      simpa [run, List.foldl_cons, applyOp, clear_bitmap_length] using this

/-- The bitmap written by `insert`, characterised bit by bit. -/
theorem insert_bitmap_getD (f : StandardBloomFilter T) (x : T) (i : ℕ) :
    (insert fh f x).bitmap.getD i false = true ↔
      f.bitmap.getD i false = true ∨
        ∃ k_i ∈ List.range f.optimal_k,
          get_index (hash_kernel fh f x).1 (hash_kernel fh f x).2 k_i
              f.bitmap.length = i ∧
            get_index (hash_kernel fh f x).1 (hash_kernel fh f x).2 k_i
              f.bitmap.length < f.bitmap.length := by
  simpa [insert] using
    getD_set_bits_iff
      (fun k_i => get_index (hash_kernel fh f x).1 (hash_kernel fh f x).2 k_i
        f.bitmap.length)
      (List.range f.optimal_k) f.bitmap i

theorem getD_insert_of_getD (f : StandardBloomFilter T) (x : T) (i : ℕ)
    (h : f.bitmap.getD i false = true) :
    (insert fh f x).bitmap.getD i false = true :=
  (insert_bitmap_getD fh f x i).mpr (Or.inl h)

theorem getD_foldl_insert_of_getD (f : StandardBloomFilter T) (ys : List T)
    (i : ℕ) (h : f.bitmap.getD i false = true) :
    (ys.foldl (insert fh) f).bitmap.getD i false = true := by
  induction ys generalizing f with
  | nil => exact h
  | cons y ys ih =>
    exact ih (insert fh f y) (getD_insert_of_getD fh f y i h)

theorem foldl_insert_hashers (f : StandardBloomFilter T) (ys : List T) :
    (ys.foldl (insert fh) f).hashers = f.hashers := by
  induction ys generalizing f with
  | nil => rfl
  | cons y ys ih => exact ih (insert fh f y)

theorem foldl_insert_optimal_k (f : StandardBloomFilter T) (ys : List T) :
    (ys.foldl (insert fh) f).optimal_k = f.optimal_k := by
  induction ys generalizing f with
  | nil => rfl
  | cons y ys ih => exact ih (insert fh f y)

theorem foldl_insert_bitmap_length (f : StandardBloomFilter T) (ys : List T) :
    (ys.foldl (insert fh) f).bitmap.length = f.bitmap.length := by
  induction ys generalizing f with
  | nil => rfl
  | cons y ys ih =>
    rw [List.foldl_cons, ih (insert fh f y), insert_bitmap_length]

/-- `contains` unfolded: all `k` probe bits must be set. -/
theorem contains_eq_true_iff (f : StandardBloomFilter T) (x : T) :
    contains fh f x = true ↔
      ∀ k_i < f.optimal_k,
        f.bitmap.getD
          (get_index (hash_kernel fh f x).1 (hash_kernel fh f x).2 k_i
            f.bitmap.length) false = true := by
  simp [contains, List.all_eq_true, List.mem_range]

theorem count_true_le_insert (f : StandardBloomFilter T) (y : T) :
    f.bitmap.count true ≤ (insert fh f y).bitmap.count true :=
  count_true_le_set_bits _ _ _

theorem count_true_le_foldl_insert (f : StandardBloomFilter T) (xs : List T) :
    f.bitmap.count true ≤ (xs.foldl (insert fh) f).bitmap.count true := by
  induction xs generalizing f with
  | nil => exact le_rfl
  | cons y ys ih =>
    exact le_trans (count_true_le_insert fh f y) (ih (insert fh f y))

/-! ## The claims -/

/-- C1: for every validly constructed filter (nonempty bitmap) and every
item `x`, after `insert(x)` followed by any further inserts (and no `clear`),
`contains(x)` returns `true`: no false negatives. -/
theorem no_false_negatives (f : StandardBloomFilter T) (x : T) (ys : List T)
    (hm : 0 < f.bitmap.length) :
    contains fh (ys.foldl (insert fh) (insert fh f x)) x = true := by
  have hhash :
      hash_kernel fh (ys.foldl (insert fh) (insert fh f x)) x =
        hash_kernel fh f x :=
    hash_kernel_congr fh
      (by rw [foldl_insert_hashers, insert_hashers]) x
  have hk :
      (ys.foldl (insert fh) (insert fh f x)).optimal_k = f.optimal_k := by
    rw [foldl_insert_optimal_k, insert_optimal_k]
  have hlen :
      (ys.foldl (insert fh) (insert fh f x)).bitmap.length =
        f.bitmap.length := by
    rw [foldl_insert_bitmap_length, insert_bitmap_length]
  rw [contains_eq_true_iff, hhash, hk, hlen]
  intro k_i hki
  apply getD_foldl_insert_of_getD
  exact (insert_bitmap_getD fh f x _).mpr
    (Or.inr ⟨k_i, List.mem_range.mpr hki, rfl, Nat.mod_lt _ hm⟩)

/-- C3: the probe index is `(h1 + k_i * h2) mod m` with wrapping (`mod 2^64`)
addition and multiplication; `insert` sets exactly the bits at the `k` probe
indices (`k_i` ranging over `0 .. k` exclusive) and `contains` tests exactly
those `k` indices. -/
theorem probe_index_formula (f : StandardBloomFilter T) (x : T)
    (hm : 0 < f.bitmap.length) :
    (∀ h1 h2 k_i len, get_index h1 h2 k_i len =
        ((h1 + k_i * h2) % 2 ^ 64) % len)
    ∧ (∀ i, (insert fh f x).bitmap.getD i false = true ↔
        (f.bitmap.getD i false = true ∨
          ∃ k_i < f.optimal_k,
            i = get_index (hash_kernel fh f x).1 (hash_kernel fh f x).2 k_i
              f.bitmap.length))
    ∧ (contains fh f x = true ↔
        ∀ k_i < f.optimal_k,
          f.bitmap.getD
            (get_index (hash_kernel fh f x).1 (hash_kernel fh f x).2 k_i
              f.bitmap.length) false = true) := by
  refine ⟨?_, ?_, contains_eq_true_iff fh f x⟩
  · intro h1 h2 k_i len
    show ((h1 + (k_i * h2) % (2 ^ 64)) % 2 ^ 64) % len = _
    rw [Nat.add_mod_mod]
  · intro i
    rw [insert_bitmap_getD]
    constructor
    · rintro (h | ⟨k_i, hk, rfl, _⟩)
      · exact Or.inl h
      · exact Or.inr ⟨k_i, List.mem_range.mp hk, rfl⟩
    · rintro (h | ⟨k_i, hk, rfl⟩)
      · exact Or.inl h
      · exact Or.inr
          ⟨k_i, List.mem_range.mpr hk, rfl, Nat.mod_lt _ hm⟩

/-- C7: `clear` zeroes every bit and nothing else: afterwards `is_empty` is
`true`, while `len`, `hash_count` and the hasher states are unchanged, and
the resulting filter is literally the freshly constructed filter with the
same `m`, `k` and seeds. -/
theorem clear_fresh_equivalent (f : StandardBloomFilter T) :
    is_empty (clear f) = true
    ∧ len (clear f) = len f
    ∧ hash_count (clear f) = hash_count f
    ∧ (clear f).hashers = f.hashers
    ∧ clear f = from_params (len f) (hash_count f) f.hashers := by
  refine ⟨?_, ?_, rfl, rfl, ?_⟩
  · simp only [is_empty, clear, List.all_eq_true]
    intro b hb
    simp [List.eq_of_mem_replicate hb]
  · simp [len, clear]
  · cases f
    rfl

/-- C9: the two hasher states are never mutated by any sequence of
operations, so `hash_kernel` returns the same pair for the same item over
the filter's whole lifetime (and the probe count `k` is stable too). -/
theorem hash_kernel_deterministic (f : StandardBloomFilter T)
    (ops : List (Op T)) (x : T) :
    (run fh f ops).hashers = f.hashers
    ∧ hash_kernel fh (run fh f ops) x = hash_kernel fh f x
    ∧ (run fh f ops).optimal_k = f.optimal_k :=
  ⟨run_hashers fh f ops,
    hash_kernel_congr fh (run_hashers fh f ops) x,
    run_optimal_k fh f ops⟩

/-- C10: with a nonempty bitmap every probe index is strictly below the
bitmap length, so `bitmap.set` in `insert` cannot panic and
`bitmap.get(index)` in `contains` is always `Some` (the `unwrap_or(false)`
fallback is unreachable). -/
theorem probe_in_bounds (f : StandardBloomFilter T) (x : T) (k_i : ℕ)
    (hm : 0 < f.bitmap.length) :
    get_index (hash_kernel fh f x).1 (hash_kernel fh f x).2 k_i
        f.bitmap.length < f.bitmap.length
    ∧ (f.bitmap.get? (get_index (hash_kernel fh f x).1
        (hash_kernel fh f x).2 k_i f.bitmap.length)).isSome = true := by
  have hlt : get_index (hash_kernel fh f x).1 (hash_kernel fh f x).2 k_i
      f.bitmap.length < f.bitmap.length := Nat.mod_lt _ hm
  exact ⟨hlt, by simp [List.getElem?_eq_getElem hlt]⟩

/-- C5: `insert` is idempotent — inserting the same item twice leaves the
bit array exactly as one insert does — and its side effect is confined to
the bit array: `k`, the hasher states and the bitmap length `m` are
unchanged. -/
theorem insert_idempotent (f : StandardBloomFilter T) (x : T)
    (hm : 0 < f.bitmap.length) :
    insert fh (insert fh f x) x = insert fh f x
    ∧ (insert fh f x).optimal_k = f.optimal_k
    ∧ (insert fh f x).hashers = f.hashers
    ∧ (insert fh f x).bitmap.length = f.bitmap.length := by
  refine ⟨?_, rfl, rfl, insert_bitmap_length fh f x⟩
  obtain ⟨bm, k, hs⟩ := f
  have hm' : 0 < bm.length := hm
  simp only [insert, hash_kernel, length_set_bits, mk.injEq, and_true,
    true_and]
  exact set_bits_eq_self _ _ _ fun k_i hk =>
    getD_set_bits_of_mem _ _ _ k_i hk (Nat.mod_lt _ hm')

/-- C6: across any sequence of inserts every set bit stays set and the count
of `true` bits never decreases; immediately after `clear` the count of
`true` bits is exactly zero. -/
theorem bits_monotone (f : StandardBloomFilter T) (xs : List T)
    (hm : 0 < f.bitmap.length) :
    (∀ i, f.bitmap.getD i false = true →
        (xs.foldl (insert fh) f).bitmap.getD i false = true)
    ∧ f.bitmap.count true ≤ (xs.foldl (insert fh) f).bitmap.count true
    ∧ (clear f).bitmap.count true = 0 := by
  refine ⟨fun i h => getD_foldl_insert_of_getD fh f xs i h,
    count_true_le_foldl_insert fh f xs, ?_⟩
  simpa [clear] using count_true_replicate_false f.bitmap.length

/-- C2: `new` fails (the `assert!` panics, modelled as `Except.error`, which
happens before the bit array is built) exactly when `items_count = 0` or
`fp_rate` is not a finite value strictly inside `(0, 1)` — a non-finite
value (`none`, e.g. NaN) always fails; on every other input `new` returns a
filter. -/
theorem construction_validation (s1 s2 n : ℕ) (fp : F64) :
    ((∃ f : StandardBloomFilter T, new s1 s2 n fp = .ok f) ↔
      (n ≠ 0 ∧ ∃ q : ℚ, fp = some q ∧ 0 < q ∧ q < 1))
    ∧ ((∃ e, (new s1 s2 n fp : Except String (StandardBloomFilter T)) =
        .error e) ↔
      (n = 0 ∨ ¬ ∃ q : ℚ, fp = some q ∧ 0 < q ∧ q < 1)) := by
  rcases fp with _ | q
  · by_cases hn : n = 0 <;> simp [new, hn]
  · by_cases hn : n = 0
    · simp [new, hn]
    · by_cases hq : 0 < q ∧ q < 1
      · simp [new, hn, hq]
        exact ⟨q, rfl, hq⟩
      · simp [new, hn, hq]
        intro x hx h0x
        injection hx with h
        subst h
        exact le_of_not_lt fun hlt => hq ⟨h0x, hlt⟩

/-- C4: for valid inputs `new` succeeds and stores
`m = ceil(-(items_count * ln fp_rate) / (ln 2)^2)` and
`k = ceil(-ln fp_rate / ln 2)` (`f64` arithmetic idealized as exact real
arithmetic), and `len` / `hash_count` return exactly these values after any
sequence of subsequent operations. -/
theorem sizing_formulas (s1 s2 n : ℕ) (q : ℚ)
    (hn : 0 < n) (h0 : 0 < q) (h1 : q < 1) :
    ∃ f : StandardBloomFilter T,
      new s1 s2 n (some q) = .ok f
      ∧ len f = ⌈-((n : ℝ) * Real.log (q : ℝ)) / Real.log 2 ^ 2⌉₊
      ∧ hash_count f = ⌈-Real.log (q : ℝ) / Real.log 2⌉₊
      ∧ ∀ ops : List (Op T),
          len (run fh f ops) = len f ∧
            hash_count (run fh f ops) = hash_count f := by
  refine ⟨from_params (bitmap_size n q) (optimal_k_calc q) (s1, s2),
    ?_, ?_, ?_, ?_⟩
  · simp [new, hn.ne', h0, h1]
  · show (List.replicate (bitmap_size n q) false).length = _
    rw [List.length_replicate, bitmap_size]
    congr 1
    ring
  · show optimal_k_calc q = _
    rw [optimal_k_calc]
    congr 1
    ring
  · intro ops
    constructor
    · show (run fh _ ops).bitmap.length = _
      rw [run_bitmap_length]
      rfl
    · show (run fh _ ops).optimal_k = _
      rw [run_optimal_k]
      rfl

/-- C8: every valid construction yields `m ≥ 1` and `k ≥ 1`, and since no
operation ever changes `m` or `k`, the invariant holds in every reachable
state. -/
theorem valid_construction_bounds (s1 s2 n : ℕ) (q : ℚ)
    (hn : 0 < n) (h0 : 0 < q) (h1 : q < 1) :
    ∃ f : StandardBloomFilter T,
      new s1 s2 n (some q) = .ok f
      ∧ 1 ≤ len f ∧ 1 ≤ hash_count f
      ∧ ∀ ops : List (Op T),
          len (run fh f ops) = len f ∧
            hash_count (run fh f ops) = hash_count f := by
  have hlogq : Real.log (q : ℝ) < 0 :=
    Real.log_neg (by exact_mod_cast h0) (by exact_mod_cast h1)
  have hlog2 : 0 < Real.log 2 := Real.log_pos (by norm_num)
  refine ⟨from_params (bitmap_size n q) (optimal_k_calc q) (s1, s2),
    ?_, ?_, ?_, ?_⟩
  · simp [new, hn.ne', h0, h1]
  · show 1 ≤ (List.replicate (bitmap_size n q) false).length
    rw [List.length_replicate, bitmap_size]
    refine Nat.ceil_pos.mpr (div_pos ?_ (by positivity))
    have hn' : (0 : ℝ) < n := by exact_mod_cast hn
    nlinarith
  · show 1 ≤ optimal_k_calc q
    rw [optimal_k_calc]
    exact Nat.ceil_pos.mpr
      (neg_pos.mpr (div_neg_of_neg_of_pos hlogq hlog2))
  · intro ops
    constructor
    · show (run fh _ ops).bitmap.length = _
      rw [run_bitmap_length]
      rfl
    · show (run fh _ ops).optimal_k = _
      rw [run_optimal_k]
      rfl

/-! ## Concrete witnesses -/

/-- Witness for `no_false_negatives` on a concrete 8-bit filter. -/
theorem no_false_negatives_witness :
    0 < (from_params 8 3 (0, 0) : StandardBloomFilter ℕ).bitmap.length
    ∧ contains (fun s x => s + x)
        ([7].foldl (insert (fun s x => s + x))
          (insert (fun s x => s + x)
            (from_params 8 3 (0, 0) : StandardBloomFilter ℕ) 5)) 5 = true :=
  ⟨by decide,
    no_false_negatives (fun s x => s + x) (from_params 8 3 (0, 0)) 5 [7]
      (by decide)⟩

/-- Witness for `probe_index_formula` on a concrete 8-bit filter. -/
theorem probe_index_formula_witness :
    0 < (from_params 8 3 (1, 2) : StandardBloomFilter ℕ).bitmap.length
    ∧ ((∀ h1 h2 k_i len, get_index h1 h2 k_i len =
          ((h1 + k_i * h2) % 2 ^ 64) % len)
      ∧ (∀ i, (insert (fun s x => s * x) (from_params 8 3 (1, 2)) 4).bitmap.getD
            i false = true ↔
          ((from_params 8 3 (1, 2) : StandardBloomFilter ℕ).bitmap.getD i false
              = true ∨
            ∃ k_i < (from_params 8 3 (1, 2) :
                StandardBloomFilter ℕ).optimal_k,
              i = get_index
                (hash_kernel (fun s x => s * x) (from_params 8 3 (1, 2)) 4).1
                (hash_kernel (fun s x => s * x) (from_params 8 3 (1, 2)) 4).2
                k_i
                (from_params 8 3 (1, 2) :
                  StandardBloomFilter ℕ).bitmap.length))
      ∧ (contains (fun s x => s * x) (from_params 8 3 (1, 2)) 4 = true ↔
          ∀ k_i < (from_params 8 3 (1, 2) : StandardBloomFilter ℕ).optimal_k,
            (from_params 8 3 (1, 2) : StandardBloomFilter ℕ).bitmap.getD
              (get_index
                (hash_kernel (fun s x => s * x) (from_params 8 3 (1, 2)) 4).1
                (hash_kernel (fun s x => s * x) (from_params 8 3 (1, 2)) 4).2
                k_i
                (from_params 8 3 (1, 2) :
                  StandardBloomFilter ℕ).bitmap.length) false = true)) :=
  ⟨by decide,
    probe_index_formula (fun s x => s * x) (from_params 8 3 (1, 2)) 4
      (by decide)⟩

/-- Witness for `sizing_formulas` at `new(100, 1/100)`. -/
theorem sizing_formulas_witness :
    (0 < 100 ∧ (0 : ℚ) < mkRat 1 100 ∧ (mkRat 1 100 : ℚ) < 1)
    ∧ ∃ f : StandardBloomFilter ℕ,
        new 0 0 100 (some (mkRat 1 100)) = .ok f
        ∧ len f = ⌈-(((100 : ℕ) : ℝ) * Real.log ((mkRat 1 100 : ℚ) : ℝ)) /
            Real.log 2 ^ 2⌉₊
        ∧ hash_count f = ⌈-Real.log ((mkRat 1 100 : ℚ) : ℝ) / Real.log 2⌉₊
        ∧ ∀ ops : List (Op ℕ),
            len (run (fun s x => s + x) f ops) = len f ∧
              hash_count (run (fun s x => s + x) f ops) = hash_count f :=
  ⟨⟨by decide, by decide, by decide⟩,
    sizing_formulas (fun s x => s + x) 0 0 100 (mkRat 1 100)
      (by decide) (by decide) (by decide)⟩

/-- Witness for `insert_idempotent` on a concrete 6-bit filter. -/
theorem insert_idempotent_witness :
    0 < (from_params 6 2 (3, 4) : StandardBloomFilter ℕ).bitmap.length
    ∧ (insert (fun s x => s * x + 1)
          (insert (fun s x => s * x + 1) (from_params 6 2 (3, 4)) 9) 9 =
        insert (fun s x => s * x + 1) (from_params 6 2 (3, 4)) 9
      ∧ (insert (fun s x => s * x + 1)
            (from_params 6 2 (3, 4) : StandardBloomFilter ℕ) 9).optimal_k =
          (from_params 6 2 (3, 4) : StandardBloomFilter ℕ).optimal_k
      ∧ (insert (fun s x => s * x + 1)
            (from_params 6 2 (3, 4) : StandardBloomFilter ℕ) 9).hashers =
          (from_params 6 2 (3, 4) : StandardBloomFilter ℕ).hashers
      ∧ (insert (fun s x => s * x + 1)
            (from_params 6 2 (3, 4) : StandardBloomFilter ℕ) 9).bitmap.length =
          (from_params 6 2 (3, 4) : StandardBloomFilter ℕ).bitmap.length) :=
  ⟨by decide,
    insert_idempotent (fun s x => s * x + 1) (from_params 6 2 (3, 4)) 9
      (by decide)⟩

/-- Witness for `bits_monotone` on a concrete 5-bit filter. -/
theorem bits_monotone_witness :
    0 < (from_params 5 2 (0, 1) : StandardBloomFilter ℕ).bitmap.length
    ∧ ((∀ i, (from_params 5 2 (0, 1) : StandardBloomFilter ℕ).bitmap.getD i
            false = true →
          ([2, 3].foldl (insert (fun s x => s + x))
            (from_params 5 2 (0, 1))).bitmap.getD i false = true)
      ∧ (from_params 5 2 (0, 1) :
            StandardBloomFilter ℕ).bitmap.count true ≤
          ([2, 3].foldl (insert (fun s x => s + x))
            (from_params 5 2 (0, 1))).bitmap.count true
      ∧ (clear (from_params 5 2 (0, 1) :
          StandardBloomFilter ℕ)).bitmap.count true = 0) :=
  ⟨by decide,
    bits_monotone (fun s x => s + x) (from_params 5 2 (0, 1)) [2, 3]
      (by decide)⟩

/-- Witness for `valid_construction_bounds` at `new(50, 1/20)`. -/
theorem valid_construction_bounds_witness :
    (0 < 50 ∧ (0 : ℚ) < mkRat 1 20 ∧ (mkRat 1 20 : ℚ) < 1)
    ∧ ∃ f : StandardBloomFilter ℕ,
        new 1 2 50 (some (mkRat 1 20)) = .ok f
        ∧ 1 ≤ len f ∧ 1 ≤ hash_count f
        ∧ ∀ ops : List (Op ℕ),
            len (run (fun s x => s * 31 + x) f ops) = len f ∧
              hash_count (run (fun s x => s * 31 + x) f ops) = hash_count f :=
  ⟨⟨by decide, by decide, by decide⟩,
    valid_construction_bounds (fun s x => s * 31 + x) 1 2 50 (mkRat 1 20)
      (by decide) (by decide) (by decide)⟩

/-- Witness for `probe_in_bounds` on a concrete 7-bit filter. -/
theorem probe_in_bounds_witness :
    0 < (from_params 7 3 (2, 2) : StandardBloomFilter ℕ).bitmap.length
    ∧ (get_index
          (hash_kernel (fun s x => s + 2 * x) (from_params 7 3 (2, 2)) 1).1
          (hash_kernel (fun s x => s + 2 * x) (from_params 7 3 (2, 2)) 1).2 2
          (from_params 7 3 (2, 2) : StandardBloomFilter ℕ).bitmap.length <
        (from_params 7 3 (2, 2) : StandardBloomFilter ℕ).bitmap.length
      ∧ ((from_params 7 3 (2, 2) : StandardBloomFilter ℕ).bitmap.get?
          (get_index
            (hash_kernel (fun s x => s + 2 * x) (from_params 7 3 (2, 2)) 1).1
            (hash_kernel (fun s x => s + 2 * x) (from_params 7 3 (2, 2)) 1).2 2
            (from_params 7 3 (2, 2) :
              StandardBloomFilter ℕ).bitmap.length)).isSome = true) :=
  ⟨by decide,
    probe_in_bounds (fun s x => s + 2 * x) (from_params 7 3 (2, 2)) 1 2
      (by decide)⟩

end StandardBloomFilter
